import Mathlib

/-!
Verification of the appstore catalog generator
(scripts/generate_appstore.py) against its specification.

The script is a single linear pass over a directory tree: it loads optional
metadata for every application directory, classifies and sorts version
subdirectories, collects per-version file listings and emits one JSON
document.  The shallow embedding below mirrors the script definition by
definition; the filesystem is modelled as explicit data (directory entries
with names, sizes and modification times, metadata files with their parse
outcome, README and icon files with their presence and content).  Machine
time `time.time()` is threaded through as an explicit `now` argument, and
the contents of the apps root as an explicit optional list of application
directories (`none` models a missing root).  Exceptions of the Python code
are modelled with `Except Unit`: the only failure source kept in the model
is a malformed metadata file, which is exactly the failure the top-level
loop of `generate` catches per application.
-/

namespace AppStore

/-- Dynamic JSON-like values as they appear in a parsed metadata mapping
and in the emitted document. -/
inductive MValue where
  | str : String → MValue
  | num : Int → MValue
  | bool : Bool → MValue
  | list : List MValue → MValue
  | dict : List (String × MValue) → MValue

/-- A parsed metadata mapping: an insertion-ordered dictionary from string
keys to dynamic values, as `yaml.safe_load` / `json.load` produce it. -/
def Metadata := List (String × MValue)

/-- Dictionary lookup, first matching key (a Python dict holds each key
once, so first-match lookup is exact). -/
def Metadata.get : Metadata → String → Option MValue
  | [], _ => none
  | (k₁, v₁) :: rest, k => if k₁ = k then some v₁ else Metadata.get rest k

/-- Embedding of `dict.get(key, default)`. -/
def Metadata.getD (m : Metadata) (k : String) (d : MValue) : MValue :=
  (Metadata.get m k).getD d

/-- Embedding of `dict[key] = value`: update the value in place when the
key is present, append the pair otherwise. -/
def Metadata.set : Metadata → String → MValue → Metadata
  | [], k, v => [(k, v)]
  | (k₁, v₁) :: rest, k, v =>
    if k₁ = k then (k₁, v) :: rest else (k₁, v₁) :: Metadata.set rest k v

/-- One entry of a version directory as the filesystem reports it: its
name, whether it is a regular file, its byte size and its modification
time in whole seconds since the Unix epoch. -/
structure FsEntry where
  name : String
  isFile : Bool
  size : Nat
  mtime : Nat

/-- One subdirectory of an application directory: its name, its immediate
entries, and the content of its `README.md` when that file exists. -/
structure SubDir where
  name : String
  entries : List FsEntry
  readme : Option String

/-- One application directory.  `metadataYml` is `some outcome` when
`metadata.yml` exists, where the outcome is a parse error or the parsed
value (`none` inside for an empty YAML document, which `safe_load` returns
as `None` and the code turns into `{}` with `or {}`).  `metadataJson` is
the same for `metadata.json` without the `or {}` step.  `readme` holds the
content of `README.md` when it exists, `iconFiles` the names of the icon
files that exist, and `subdirs` the subdirectories in directory order. -/
structure AppDir where
  name : String
  metadataYml : Option (Except Unit (Option Metadata))
  metadataJson : Option (Except Unit Metadata)
  readme : Option String
  iconFiles : List String
  subdirs : List SubDir

/-- The generator configuration: the resolved `GITHUB_REPOSITORY` value
(the environment variable, or the literal default). -/
structure Config where
  github_repo : String

/-- Embedding of `self.base_url` from `__init__`. -/
def Config.base_url (c : Config) : String :=
  "https://raw.githubusercontent.com/" ++ c.github_repo ++ "/main"

/-! ### Calendar arithmetic: the embedding of `time.gmtime` -/

/-- Leap-year test of the proleptic Gregorian calendar. -/
def isLeap (y : Nat) : Bool := (y % 4 == 0 && y % 100 != 0) || y % 400 == 0

/-- Days in a calendar year. -/
def daysInYear (y : Nat) : Nat := if isLeap y then 366 else 365

/-- The lengths of the twelve months of a year. -/
def monthLengths (leap : Bool) : List Nat :=
  [31, if leap then 29 else 28, 31, 30, 31, 30, 31, 31, 30, 31, 30, 31]

/-- The year-finding loop of the calendar decomposition, with explicit
fuel: starting at year `y` with `d` whole days remaining, subtract whole
years while at least one year of days remains.  Fuel `d + 1` always
suffices because every year has at least 365 days. -/
def civilYearGo : Nat → Nat → Nat → Nat × Nat
  | 0, y, d => (y, d)
  | fuel + 1, y, d =>
    if d < daysInYear y then (y, d)
    else civilYearGo fuel (y + 1) (d - daysInYear y)

/-- Year and remaining day-of-year of a count of days since 1970-01-01. -/
def civilYear (d : Nat) : Nat × Nat := civilYearGo (d + 1) 1970 d

/-- The month-finding loop: walk the month lengths, returning the
one-based month and the remaining zero-based day of the month. -/
def civilMonth : List Nat → Nat → Nat → Nat × Nat
  | [], m, d => (m, d)
  | len :: rest, m, d =>
    if d < len then (m, d) else civilMonth rest (m + 1) (d - len)

/-- A broken-down UTC time, the relevant fields of `struct_time`. -/
structure TimeParts where
  year : Nat
  month : Nat
  day : Nat
  hour : Nat
  minute : Nat
  second : Nat

/-- Embedding of `time.gmtime` on a nonnegative epoch timestamp: the UTC
calendar decomposition of whole seconds since 1970-01-01T00:00:00Z. -/
def gmtime (t : Nat) : TimeParts :=
  let days := t / 86400
  let rem := t % 86400
  let yd := civilYear days
  let md := civilMonth (monthLengths (isLeap yd.1)) 1 yd.2
  { year := yd.1, month := md.1, day := md.2 + 1,
    hour := rem / 3600, minute := rem % 3600 / 60, second := rem % 60 }

/-- A natural number rendered with at least two digits. -/
def pad2 (n : Nat) : String := if n < 10 then "0" ++ toString n else toString n

/-- A natural number rendered with at least four digits. -/
def pad4 (n : Nat) : String :=
  if n < 10 then "000" ++ toString n
  else if n < 100 then "00" ++ toString n
  else if n < 1000 then "0" ++ toString n
  else toString n

/-- Embedding of `time.strftime` with the exact format string of the
script, `%Y-%m-%dT%H:%M:%S.000+00:00`: the numeric fields are zero-padded
and the suffix `.000+00:00` is literal text in the format. -/
def strftimeISO (p : TimeParts) : String :=
  pad4 p.year ++ "-" ++ pad2 p.month ++ "-" ++ pad2 p.day ++ "T" ++
  pad2 p.hour ++ ":" ++ pad2 p.minute ++ ":" ++ pad2 p.second ++ ".000+00:00"

/-- One emitted file record. -/
structure FileInfo where
  name : String
  size : Nat
  lastModified : String

/-- Embedding of `AppStoreGenerator.get_file_info` (source lines 23-31). -/
def get_file_info (e : FsEntry) : FileInfo :=
  { name := e.name, size := e.size,
    lastModified := strftimeISO (gmtime e.mtime) }

/-! ### String helpers of the script -/

/-- Every occurrence of the character `a` replaced by `b`; this is what
`str.replace(old, new)` does when `old` is a single character. -/
def replaceChar (a b : Char) (s : String) : String :=
  String.mk (s.data.map (fun c => if c = a then b else c))

/-- Embedding of `AppStoreGenerator.parse_version` (source lines 33-40):
`'-' in s` on a single-character needle is membership of that character. -/
def parse_version (version_dir : String) : String :=
  if ('-' : Char) ∈ version_dir.data then replaceChar '-' '.' version_dir
  else if ('_' : Char) ∈ version_dir.data then replaceChar '_' '.' version_dir
  else version_dir

/-- Embedding of `str.title()` for ASCII text: the first letter of every
maximal run of letters is uppercased and the rest lowercased; other
characters pass through unchanged and end the current run. -/
def titleAux : Bool → List Char → List Char
  | _, [] => []
  | prevCased, c :: rest =>
    (if c.isAlpha then (if prevCased then c.toLower else c.toUpper) else c)
      :: titleAux c.isAlpha rest

/-- Embedding of `str.title()` on a whole string. -/
def titlecase (s : String) : String := String.mk (titleAux false s.data)

/-- Embedding of `name.startswith('.')`: whether the first character of
the string is a dot. -/
def startsWithDot (s : String) : Bool :=
  match s.data with
  | [] => false
  | c :: _ => c = '.'

/-- Code-point comparison of two character lists, the order Python uses to
compare strings. -/
def strLeChars : List Char → List Char → Bool
  | [], _ => true
  | _ :: _, [] => false
  | a :: as, b :: bs =>
    if a.toNat < b.toNat then true
    else if b.toNat < a.toNat then false
    else strLeChars as bs

/-- Lexicographic string comparison by code point, the comparison behind
every `sort` call of the script. -/
def strLe (a b : String) : Bool := strLeChars a.data b.data

/-! ### The version-directory test -/

/-- The character class `[-._]` of the version regular expression. -/
def isSep (c : Char) : Bool := c = '-' || c = '.' || c = '_'

/-- State of the regex matcher after the first digit: consume further
digits of the first group, then require one separator followed by at least
one digit. -/
def matchSepDigit : List Char → Bool
  | [] => false
  | c :: rest =>
    if c.isDigit then matchSepDigit rest
    else if isSep c then
      match rest with
      | [] => false
      | d :: _ => d.isDigit
    else false

/-- At least one digit, then a separator, then at least one digit, at the
start of the list. -/
def matchNum : List Char → Bool
  | [] => false
  | c :: rest => c.isDigit && matchSepDigit rest

/-- The whole pattern on a character list: `v?` tries to consume a leading
`v` and, as the regex engine would on backtracking, also tries the empty
alternative. -/
def regexChars : List Char → Bool
  | [] => false
  | c :: rest =>
    if c = 'v' then matchNum rest || matchNum (c :: rest)
    else matchNum (c :: rest)

/-- Embedding of `re.match(r'^v?\d+[-._]\d+', name)` as a Boolean: whether
the anchored pattern matches at the start of the name (the names the
script meets are ASCII, where `\d` is the digits 0-9). -/
def version_regex_accepts (s : String) : Bool :=
  regexChars s.data

/-- The test applied to each subdirectory of an application directory
(source lines 146-150): keep it when it is not hidden and its name either
matches the version regular expression or is `latest` or `stable`. -/
def is_version_dir (name : String) : Bool :=
  !(startsWithDot name) &&
    (version_regex_accepts name || name == "latest" || name == "stable")

/-! ### Metadata loading -/

/-- The icon-file preference order of `get_app_metadata`. -/
def iconNames : List String := ["logo.png", "icon.png", "logo.svg", "icon.svg"]

/-- The metadata-file step of `get_app_metadata` (source lines 46-55):
parse `metadata.yml` when it exists (an empty document becomes `{}` via
`or {}`), else parse `metadata.json` when it exists, else start from the
empty mapping.  A parse error is the exception the caller sees. -/
def load_metadata_file (app_dir : AppDir) : Except Unit Metadata :=
  match app_dir.metadataYml with
  | some parsed =>
    match parsed with
    | Except.error e => Except.error e
    | Except.ok v => Except.ok (v.getD [])
  | none =>
    match app_dir.metadataJson with
    | some parsed => parsed
    | none => Except.ok []

/-- The README step of `get_app_metadata` (source lines 57-61): when
`README.md` exists its full text is stored under the key `readMe`. -/
def add_readme (app_dir : AppDir) (m : Metadata) : Metadata :=
  match app_dir.readme with
  | some text => Metadata.set m "readMe" (MValue.str text)
  | none => m

/-- The icon step of `get_app_metadata` (source lines 63-68): the first
existing icon file in preference order is stored under the key `icon` as
an absolute URL. -/
def add_icon (cfg : Config) (app_dir : AppDir) (m : Metadata) : Metadata :=
  match iconNames.find? (fun n => app_dir.iconFiles.contains n) with
  | some icon_name =>
    Metadata.set m "icon"
      (MValue.str (cfg.base_url ++ "/apps/" ++ app_dir.name ++ "/" ++ icon_name))
  | none => m

/-- Embedding of `AppStoreGenerator.get_app_metadata` (source lines
42-70). -/
def get_app_metadata (cfg : Config) (app_dir : AppDir) : Except Unit Metadata :=
  match load_metadata_file app_dir with
  | Except.error e => Except.error e
  | Except.ok m => Except.ok (add_icon cfg app_dir (add_readme app_dir m))

/-! ### Version, application and store records -/

/-- One emitted version record. -/
structure VersionData where
  valid : Bool
  violations : List MValue
  id : String
  readMe : Option String
  name : String
  lastModified : Nat
  files : List FileInfo
  downloadUrl : String
  downloadCallbackUrl : String

/-- Embedding of `AppStoreGenerator.process_version` (source lines
72-103): list the non-hidden regular files, sort them by name (Python's
sort is stable, as is insertion sort, and stability plus the total
comparison determines the result uniquely), and fill the record; the
`readMe` field ends up as the version README's content when it exists and
`None` otherwise. -/
def process_version (cfg : Config) (now : Nat) (app_name : String)
    (version_dir : SubDir) : VersionData :=
  let version_name := parse_version version_dir.name
  let files := (version_dir.entries.filter
    (fun e => e.isFile && !(startsWithDot e.name))).map get_file_info
  let files := files.insertionSort (fun a b => strLe a.name b.name = true)
  { valid := true
    violations := []
    id := version_dir.name
    readMe := version_dir.readme
    name := version_name
    lastModified := now
    files := files
    downloadUrl :=
      cfg.base_url ++ "/apps/" ++ app_name ++ "/" ++ version_dir.name
    downloadCallbackUrl :=
      "https://api.github.com/repos/" ++ cfg.github_repo ++
        "/contents/apps/" ++ app_name ++ "/" ++ version_dir.name }

/-- The `additionalProperties` sub-object of an application record. -/
structure AddProps where
  key : String
  name : MValue
  tags : MValue
  shortDescZh : MValue
  shortDescEn : MValue
  description : MValue
  type : MValue
  crossVersionUpdate : MValue
  limit : MValue
  recommend : MValue
  website : MValue
  github : MValue
  document : MValue
  architectures : MValue

/-- One emitted application record. -/
structure AppData where
  valid : Bool
  violations : List MValue
  id : String
  lastModified : Nat
  icon : MValue
  readMe : MValue
  description : MValue
  name : MValue
  tags : MValue
  title : MValue
  additionalProperties : AddProps
  versions : List VersionData

/-- The pure body of `process_app` once the metadata mapping is loaded
(source lines 110-160): the record with its metadata overrides and
defaults, and the classified, descending-sorted, processed versions. -/
def build_app_data (cfg : Config) (now : Nat) (app_dir : AppDir)
    (metadata : Metadata) : AppData :=
  let app_name := app_dir.name
  let version_dirs := app_dir.subdirs.filter (fun item => is_version_dir item.name)
  let version_dirs :=
    version_dirs.insertionSort (fun a b => strLe b.name a.name = true)
  { valid := true
    violations := []
    id := app_name
    lastModified := now
    icon := Metadata.getD metadata "icon"
      (MValue.str (cfg.base_url ++ "/apps/" ++ app_name ++ "/logo.png"))
    readMe := Metadata.getD metadata "readMe"
      (MValue.str ("# " ++ titlecase app_name ++ "\n\nDescription for " ++
        app_name ++ "..."))
    description := Metadata.getD metadata "description"
      (MValue.str ("Description for " ++ app_name))
    name := Metadata.getD metadata "name" (MValue.str (titlecase app_name))
    tags := Metadata.getD metadata "tags" (MValue.list [])
    title := Metadata.getD metadata "title" (MValue.str (titlecase app_name))
    additionalProperties :=
      { key := app_name
        name := Metadata.getD metadata "name" (MValue.str (titlecase app_name))
        tags := Metadata.getD metadata "tags" (MValue.list [])
        shortDescZh := Metadata.getD metadata "shortDescZh" (MValue.str "")
        shortDescEn := Metadata.getD metadata "shortDescEn"
          (Metadata.getD metadata "description" (MValue.str ""))
        description := Metadata.getD metadata "descriptions"
          (MValue.dict
            [("en", Metadata.getD metadata "description" (MValue.str "")),
             ("zh", Metadata.getD metadata "descriptionZh" (MValue.str ""))])
        type := Metadata.getD metadata "type" (MValue.str "runtime")
        crossVersionUpdate := Metadata.getD metadata "crossVersionUpdate"
          (MValue.bool true)
        limit := Metadata.getD metadata "limit" (MValue.num 1)
        recommend := Metadata.getD metadata "recommend" (MValue.num 100)
        website := Metadata.getD metadata "website" (MValue.str "")
        github := Metadata.getD metadata "github" (MValue.str "")
        document := Metadata.getD metadata "document" (MValue.str "")
        architectures := Metadata.getD metadata "architectures"
          (MValue.list [MValue.str "amd64", MValue.str "arm64"]) }
    versions := version_dirs.map (process_version cfg now app_name) }

/-- Embedding of `AppStoreGenerator.process_app` (source lines 105-160):
load the metadata, which is the step that can raise, then build the
record. -/
def process_app (cfg : Config) (now : Nat) (app_dir : AppDir) :
    Except Unit AppData :=
  match get_app_metadata cfg app_dir with
  | Except.error e => Except.error e
  | Except.ok metadata => Except.ok (build_app_data cfg now app_dir metadata)

/-- The emitted store document. -/
structure StoreData where
  valid : Bool
  violations : List MValue
  id : String
  icon : String
  lastModified : Nat
  name : String
  title : String
  extra : List (String × MValue)
  apps : List AppData

/-- Embedding of `AppStoreGenerator.generate` (source lines 162-200): the
document the run writes to `appstore.json`.  `root` is `none` when the
apps directory does not exist and otherwise the list of its
subdirectories; the function is total, mirroring a run that always reaches
`save`.  The `try`/`except` of the loop keeps exactly the applications
whose processing succeeds, in sorted order. -/
def generate (cfg : Config) (now : Nat) (root : Option (List AppDir)) :
    StoreData :=
  let store : StoreData :=
    { valid := true
      violations := []
      id := "corapanel"
      icon := "https://cdn-icons-png.flaticon.com/512/4187/4187336.png"
      lastModified := now
      name := "CoraPANEL"
      title := "Official Appstore for CoraPANEL"
      extra := [("version", MValue.str "v1.0.0")]
      apps := [] }
  match root with
  | none => store
  | some dirs =>
    let app_dirs := dirs.filter (fun d => !(startsWithDot d.name))
    let app_dirs := app_dirs.insertionSort (fun a b => strLe a.name b.name = true)
    { store with
        apps := app_dirs.filterMap (fun d => (process_app cfg now d).toOption) }

/-! ### Spec-side definitions

These definitions restate parts of the specification in declarative form,
independently of the code path above, so that the theorems can compare the
two. -/

/-- The version-name pattern as the specification words it: an optional
leading `v`, then one or more digits, then one of `-` `.` `_`, then at
least one further digit, all anchored at the start of the name (the rest
of the name is unconstrained, as `re.match` only anchors the left end). -/
def SpecVersionPattern (s : List Char) : Prop :=
  ∃ pre ds sep d rest,
    (pre = [] ∨ pre = ['v']) ∧ ds ≠ [] ∧ (∀ c ∈ ds, c.isDigit = true) ∧
    (sep = '-' ∨ sep = '.' ∨ sep = '_') ∧ d.isDigit = true ∧
    s = pre ++ ds ++ sep :: d :: rest

/-- Total days in the calendar years from `lo` (inclusive) to `hi`
(exclusive), the forward counterpart of the year loop. -/
def sumYears (lo hi : Nat) : Nat :=
  (((List.range (hi - lo)).map (fun i => daysInYear (lo + i)))).sum

/-- Days in the months of a year before the one-based month `m`. -/
def daysBeforeMonthInYear (leap : Bool) (m : Nat) : Nat :=
  ((monthLengths leap).take (m - 1)).sum

/-- The forward re-encoding of a broken-down UTC time as seconds since
the epoch, computed directly from calendar arithmetic.  `gmtime` is a
correct UTC decomposition exactly when this map sends its output back to
the input timestamp. -/
def epochOfParts (p : TimeParts) : Nat :=
  (sumYears 1970 p.year + daysBeforeMonthInYear (isLeap p.year) p.month +
      (p.day - 1)) * 86400 +
    p.hour * 3600 + p.minute * 60 + p.second

/-- Modelled from the spec: the file-timestamp behavior section 9 of the
specification alleges, namely the modification time interpreted in the
host's local timezone (UTC shifted by the host's offset from UTC in
seconds) yet rendered with the same literal `+00:00` suffix. -/
def claimedLocalLastModified (utcOffsetSeconds : Int) (mtime : Nat) : String :=
  strftimeISO (gmtime ((mtime + utcOffsetSeconds).toNat))

/-! ### Concrete fixtures used by the witnesses -/

/-- A concrete configuration. -/
def fixtureCfg : Config := { github_repo := "cloudora-vn/appstore" }

/-- An application directory with no metadata files at all. -/
def dPlain : AppDir :=
  { name := "nginx", metadataYml := none, metadataJson := none,
    readme := none, iconFiles := [],
    subdirs :=
      [{ name := "data", entries := [], readme := none },
       { name := "1-26-0",
         entries := [{ name := "compose.yml", isFile := true, size := 12, mtime := 0 },
                     { name := "app.tar", isFile := true, size := 3, mtime := 90061 }],
         readme := none },
       { name := "latest", entries := [], readme := none }] }

/-- An application directory whose `metadata.yml` is malformed. -/
def dBroken : AppDir :=
  { name := "broken", metadataYml := some (Except.error ()),
    metadataJson := none, readme := none, iconFiles := [], subdirs := [] }

/-- An application directory with a metadata `description` but no
`shortDescEn`. -/
def dDescOnly : AppDir :=
  { name := "caddy",
    metadataYml := some (Except.ok (some [("description", MValue.str "A web server")])),
    metadataJson := none, readme := none, iconFiles := [], subdirs := [] }

/-- The metadata mapping `dDescOnly` carries. -/
def mDescOnly : Metadata := [("description", MValue.str "A web server")]

/-- The application record built from `dDescOnly`. -/
def appDescOnly : AppData := build_app_data fixtureCfg 0 dDescOnly mDescOnly

/-- An application directory exercising every version-name example of the
specification. -/
def dVersions : AppDir :=
  { name := "redis", metadataYml := none, metadataJson := none,
    readme := none, iconFiles := [],
    subdirs :=
      [{ name := "data", entries := [], readme := none },
       { name := ".hidden", entries := [], readme := none },
       { name := "1", entries := [], readme := none },
       { name := "latest", entries := [], readme := none },
       { name := "stable", entries := [], readme := none },
       { name := "v1-0", entries := [], readme := none },
       { name := "2.5.1", entries := [], readme := none }] }

/-! ### Dictionary lemmas -/

theorem Metadata.get_set_self (m : Metadata) (k : String) (v : MValue) :
    Metadata.get (Metadata.set m k v) k = some v := by
  induction m with
  | nil => simp [Metadata.set, Metadata.get]
  | cons p rest ih =>
    obtain ⟨k₁, v₁⟩ := p
    by_cases h : k₁ = k
    · simp [Metadata.set, Metadata.get, h]
    · simp [Metadata.set, Metadata.get, h, ih]

theorem Metadata.get_set_ne (m : Metadata) (k k' : String) (v : MValue)
    (h : k' ≠ k) : Metadata.get (Metadata.set m k v) k' = Metadata.get m k' := by
  have hne : ¬ k = k' := fun hh => h hh.symm
  induction m with
  | nil => simp [Metadata.set, Metadata.get, hne]
  | cons p rest ih =>
    obtain ⟨k₁, v₁⟩ := p
    by_cases h1 : k₁ = k
    · subst h1
      simp [Metadata.set, Metadata.get, hne]
    · simp only [Metadata.set, if_neg h1, Metadata.get]
      by_cases h2 : k₁ = k'
      · simp [h2]
      · simp [h2, ih]

theorem get_add_readme_ne (d : AppDir) (m : Metadata) (k : String)
    (h : k ≠ "readMe") :
    Metadata.get (add_readme d m) k = Metadata.get m k := by
  unfold add_readme
  cases d.readme with
  | none => rfl
  | some t => exact Metadata.get_set_ne m "readMe" k (MValue.str t) h

theorem get_add_icon_ne (cfg : Config) (d : AppDir) (m : Metadata) (k : String)
    (h : k ≠ "icon") :
    Metadata.get (add_icon cfg d m) k = Metadata.get m k := by
  unfold add_icon
  cases iconNames.find? (fun n => d.iconFiles.contains n) with
  | none => rfl
  | some i => exact Metadata.get_set_ne m "icon" k _ h

/-! ### Inversion and projection lemmas for the pipeline -/

theorem except_toOption_eq_some {ε α : Type} (e : Except ε α) (a : α) :
    e.toOption = some a ↔ e = Except.ok a := by
  cases e <;> simp [Except.toOption]

theorem process_app_ok_iff (cfg : Config) (now : Nat) (d : AppDir) (a : AppData) :
    process_app cfg now d = Except.ok a ↔
      ∃ m, get_app_metadata cfg d = Except.ok m ∧ a = build_app_data cfg now d m := by
  unfold process_app
  cases hm : get_app_metadata cfg d <;> simp [eq_comm]

theorem build_app_data_id (cfg : Config) (now : Nat) (d : AppDir) (m : Metadata) :
    (build_app_data cfg now d m).id = d.name := rfl

theorem build_app_data_versions (cfg : Config) (now : Nat) (d : AppDir)
    (m : Metadata) :
    (build_app_data cfg now d m).versions =
      ((d.subdirs.filter (fun item => is_version_dir item.name)).insertionSort
        (fun a b => strLe b.name a.name = true)).map
          (process_version cfg now d.name) := rfl

theorem process_version_id (cfg : Config) (now : Nat) (an : String) (sub : SubDir) :
    (process_version cfg now an sub).id = sub.name := rfl

theorem process_version_files (cfg : Config) (now : Nat) (an : String)
    (sub : SubDir) :
    (process_version cfg now an sub).files =
      ((sub.entries.filter
        (fun e => e.isFile && !(startsWithDot e.name))).map
          get_file_info).insertionSort (fun a b => strLe a.name b.name = true) := rfl

theorem generate_some_apps (cfg : Config) (now : Nat) (dirs : List AppDir) :
    (generate cfg now (some dirs)).apps =
      ((dirs.filter (fun d => !(startsWithDot d.name))).insertionSort
        (fun a b => strLe a.name b.name = true)).filterMap
          (fun d => (process_app cfg now d).toOption) := rfl

theorem mem_generate_apps (cfg : Config) (now : Nat) (dirs : List AppDir)
    (a : AppData) :
    a ∈ (generate cfg now (some dirs)).apps ↔
      ∃ d ∈ dirs, startsWithDot d.name = false ∧
        process_app cfg now d = Except.ok a := by
  rw [generate_some_apps]
  rw [List.mem_filterMap]
  constructor
  · rintro ⟨d, hd, hsome⟩
    have hd' := (List.perm_insertionSort _ _).subset hd
    rw [List.mem_filter] at hd'
    exact ⟨d, hd'.1, by simpa using hd'.2,
      (except_toOption_eq_some _ _).mp hsome⟩
  · rintro ⟨d, hd, hhid, hok⟩
    refine ⟨d, (List.perm_insertionSort _ _).mem_iff.mpr ?_, ?_⟩
    · rw [List.mem_filter]
      exact ⟨hd, by simpa using hhid⟩
    · rw [except_toOption_eq_some]
      exact hok

/-! ### The code-point order is a total preorder -/

theorem strLeChars_cons_iff (a b : Char) (as bs : List Char) :
    strLeChars (a :: as) (b :: bs) = true ↔
      a.toNat < b.toNat ∨ (a.toNat = b.toNat ∧ strLeChars as bs = true) := by
  simp only [strLeChars]
  by_cases h1 : a.toNat < b.toNat
  · simp [h1]
  · by_cases h2 : b.toNat < a.toNat
    · simp only [if_neg h1, if_pos h2]
      constructor
      · intro hf
        exact absurd hf (by simp)
      · rintro (h3 | ⟨h3, _⟩) <;> omega
    · have heq : a.toNat = b.toNat := by omega
      simp [h1, h2, heq]

theorem strLeChars_total (as : List Char) : ∀ (bs : List Char),
    strLeChars as bs = true ∨ strLeChars bs as = true := by
  induction as with
  | nil => intro bs; left; rfl
  | cons a as ih =>
    intro bs
    cases bs with
    | nil => right; rfl
    | cons b bs =>
      rcases Nat.lt_trichotomy a.toNat b.toNat with h | h | h
      · left; rw [strLeChars_cons_iff]; exact Or.inl h
      · rcases ih bs with hl | hr
        · left; rw [strLeChars_cons_iff]; exact Or.inr ⟨h, hl⟩
        · right; rw [strLeChars_cons_iff]; exact Or.inr ⟨h.symm, hr⟩
      · right; rw [strLeChars_cons_iff]; exact Or.inl h

theorem strLeChars_trans (as : List Char) : ∀ (bs cs : List Char),
    strLeChars as bs = true → strLeChars bs cs = true →
      strLeChars as cs = true := by
  induction as with
  | nil => intro bs cs _ _; rfl
  | cons a as ih =>
    intro bs cs h1 h2
    cases bs with
    | nil => simp [strLeChars] at h1
    | cons b bs =>
      cases cs with
      | nil => simp [strLeChars] at h2
      | cons c cs =>
        rw [strLeChars_cons_iff] at h1 h2 ⊢
        rcases h1 with h1 | ⟨h1, h1'⟩ <;> rcases h2 with h2 | ⟨h2, h2'⟩
        · exact Or.inl (by omega)
        · exact Or.inl (by omega)
        · exact Or.inl (by omega)
        · exact Or.inr ⟨by omega, ih bs cs h1' h2'⟩

theorem strLe_total (a b : String) : strLe a b = true ∨ strLe b a = true :=
  strLeChars_total a.data b.data

theorem strLe_trans (a b c : String) (h1 : strLe a b = true)
    (h2 : strLe b c = true) : strLe a c = true :=
  strLeChars_trans a.data b.data c.data h1 h2

/-! ### Claim C4: output ordering -/

/-- C4: in every generated catalog the applications are sorted ascending
by directory name under the code-point lexicographic string order, every
application's versions are sorted descending by directory name under the
same string order (not semantic-version order), and every version's files
are sorted ascending by filename. -/
theorem C4_output_ordering :
    ∀ (cfg : Config) (now : Nat) (root : Option (List AppDir)),
      (generate cfg now root).apps.Pairwise
        (fun a b => strLe a.id b.id = true) ∧
      ∀ a ∈ (generate cfg now root).apps,
        a.versions.Pairwise (fun u v => strLe v.id u.id = true) ∧
        ∀ v ∈ a.versions,
          v.files.Pairwise (fun f g => strLe f.name g.name = true) := by
  intro cfg now root
  have hsortApps : ∀ (l : List AppDir),
      (l.insertionSort (fun a b => strLe a.name b.name = true)).Pairwise
        (fun a b => strLe a.name b.name = true) := by
    intro l
    haveI : IsTotal AppDir (fun a b => strLe a.name b.name = true) :=
      ⟨fun a b => strLe_total a.name b.name⟩
    haveI : IsTrans AppDir (fun a b => strLe a.name b.name = true) :=
      ⟨fun a b c => strLe_trans a.name b.name c.name⟩
    exact List.sorted_insertionSort _ l
  have hsortSubs : ∀ (l : List SubDir),
      (l.insertionSort (fun a b => strLe b.name a.name = true)).Pairwise
        (fun a b => strLe b.name a.name = true) := by
    intro l
    haveI : IsTotal SubDir (fun a b => strLe b.name a.name = true) :=
      ⟨fun a b => strLe_total b.name a.name⟩
    haveI : IsTrans SubDir (fun a b => strLe b.name a.name = true) :=
      ⟨fun a b c h1 h2 => strLe_trans c.name b.name a.name h2 h1⟩
    exact List.sorted_insertionSort _ l
  have hsortFiles : ∀ (l : List FileInfo),
      (l.insertionSort (fun a b => strLe a.name b.name = true)).Pairwise
        (fun a b => strLe a.name b.name = true) := by
    intro l
    haveI : IsTotal FileInfo (fun a b => strLe a.name b.name = true) :=
      ⟨fun a b => strLe_total a.name b.name⟩
    haveI : IsTrans FileInfo (fun a b => strLe a.name b.name = true) :=
      ⟨fun a b c => strLe_trans a.name b.name c.name⟩
    exact List.sorted_insertionSort _ l
  have hversions : ∀ a ∈ (generate cfg now root).apps,
      a.versions.Pairwise (fun u v => strLe v.id u.id = true) ∧
      ∀ v ∈ a.versions,
        v.files.Pairwise (fun f g => strLe f.name g.name = true) := by
    intro a ha
    cases root with
    | none => simp [generate] at ha
    | some dirs =>
      rw [mem_generate_apps] at ha
      obtain ⟨d, _, _, hok⟩ := ha
      rw [process_app_ok_iff] at hok
      obtain ⟨m, _, rfl⟩ := hok
      rw [build_app_data_versions]
      constructor
      · refine List.Pairwise.map _ ?_ (hsortSubs _)
        intro x y hxy
        simpa [process_version_id] using hxy
      · intro v hv
        rw [List.mem_map] at hv
        obtain ⟨sub, _, rfl⟩ := hv
        rw [process_version_files]
        exact hsortFiles _
  refine ⟨?_, hversions⟩
  cases root with
  | none => simp [generate]
  | some dirs =>
    rw [generate_some_apps]
    refine List.Pairwise.filterMap _ ?_ (hsortApps _)
    intro d d' hdd a ha a' ha'
    rw [Option.mem_def, except_toOption_eq_some, process_app_ok_iff] at ha ha'
    obtain ⟨m, _, rfl⟩ := ha
    obtain ⟨m', _, rfl⟩ := ha'
    simpa [build_app_data_id] using hdd

/-! ### Claim C6: a missing apps root yields the empty catalog -/

/-- C6: whenever the apps root directory does not exist, the generator
completes without an exception (the embedding of the run is a total
function through `save`) and the written catalog is exactly the constant
store document with an empty `apps` list. -/
theorem C6_missing_apps_root : ∀ (cfg : Config) (now : Nat),
    generate cfg now none =
      { valid := true
        violations := []
        id := "corapanel"
        icon := "https://cdn-icons-png.flaticon.com/512/4187/4187336.png"
        lastModified := now
        name := "CoraPANEL"
        title := "Official Appstore for CoraPANEL"
        extra := [("version", MValue.str "v1.0.0")]
        apps := [] } := by
  intro cfg now
  rfl

/-! ### Claim C3: version-name normalization -/

/-- C3: the normalized display name replaces every `-` by `.` when the
directory name contains a `-`, otherwise every `_` by `.` when it contains
a `_`, otherwise it is the name unchanged; in particular `1-26-0` becomes
`1.26.0`, `1_26_0` becomes `1.26.0` and `v2.0` is unchanged. -/
theorem C3_version_name_normalization :
    (∀ s : String,
      (('-' : Char) ∈ s.data → parse_version s = replaceChar '-' '.' s) ∧
      (('-' : Char) ∉ s.data → ('_' : Char) ∈ s.data →
        parse_version s = replaceChar '_' '.' s) ∧
      (('-' : Char) ∉ s.data → ('_' : Char) ∉ s.data → parse_version s = s)) ∧
    parse_version "1-26-0" = "1.26.0" ∧
    parse_version "1_26_0" = "1.26.0" ∧
    parse_version "v2.0" = "v2.0" := by
  refine ⟨fun s => ⟨fun h => ?_, fun h1 h2 => ?_, fun h1 h2 => ?_⟩,
    by decide, by decide, by decide⟩
  · simp [parse_version, h]
  · simp [parse_version, h1, h2]
  · simp [parse_version, h1, h2]

/-! ### Claim C9: constant validation placeholders -/

/-- C9: every emitted entity of every run, the store document itself,
every application record and every version record, carries `valid = true`
and an empty `violations` list. -/
theorem C9_constant_validation_placeholders :
    ∀ (cfg : Config) (now : Nat) (root : Option (List AppDir)),
      (generate cfg now root).valid = true ∧
      (generate cfg now root).violations = [] ∧
      ∀ a ∈ (generate cfg now root).apps,
        a.valid = true ∧ a.violations = [] ∧
        ∀ v ∈ a.versions, v.valid = true ∧ v.violations = [] := by
  intro cfg now root
  refine ⟨?_, ?_, ?_⟩
  · cases root <;> rfl
  · cases root <;> rfl
  · intro a ha
    cases root with
    | none => simp [generate] at ha
    | some dirs =>
      rw [mem_generate_apps] at ha
      obtain ⟨d, _, _, hok⟩ := ha
      rw [process_app_ok_iff] at hok
      obtain ⟨m, _, rfl⟩ := hok
      refine ⟨rfl, rfl, ?_⟩
      intro v hv
      rw [build_app_data_versions, List.mem_map] at hv
      obtain ⟨sub, _, rfl⟩ := hv
      exact ⟨rfl, rfl⟩

/-! ### Claim C1: per-application fault isolation -/

/-- C1: for every apps root, the generated catalog contains exactly the
non-hidden application directories whose processing succeeds: every
application that processes without an exception is in the catalog, and
every catalog entry comes from an application whose processing succeeded,
so an application whose processing raises (for instance on a malformed
metadata file) is omitted while the run still completes and produces the
store document. -/
theorem C1_fault_isolation :
    ∀ (cfg : Config) (now : Nat) (dirs : List AppDir),
      (∀ d ∈ dirs, startsWithDot d.name = false →
        ∀ a, process_app cfg now d = Except.ok a →
          a ∈ (generate cfg now (some dirs)).apps) ∧
      (∀ a ∈ (generate cfg now (some dirs)).apps,
        ∃ d ∈ dirs, startsWithDot d.name = false ∧
          process_app cfg now d = Except.ok a) := by
  intro cfg now dirs
  constructor
  · intro d hd hhid a hok
    exact (mem_generate_apps cfg now dirs a).mpr ⟨d, hd, hhid, hok⟩
  · intro a ha
    exact (mem_generate_apps cfg now dirs a).mp ha

/-- A concrete run of the fault-isolation path: of two applications, one
with a malformed `metadata.yml` and one valid, the generated catalog
contains exactly the valid one and processing the broken one is the
per-application error the loop catches. -/
theorem C1_fault_isolation_demo :
    (generate fixtureCfg 0 (some [dBroken, dPlain])).apps.map AppData.id =
        ["nginx"] ∧
      process_app fixtureCfg 0 dBroken = Except.error () := by
  exact ⟨rfl, rfl⟩

/-! ### The regex matcher agrees with the declarative pattern -/

theorem isSep_not_digit (c : Char) (h : isSep c = true) : c.isDigit = false := by
  have h' : c = '-' ∨ c = '.' ∨ c = '_' := by
    simpa [isSep, or_assoc] using h
  rcases h' with h' | h' | h' <;> subst h' <;> decide

theorem matchSepDigit_iff (l : List Char) :
    matchSepDigit l = true ↔
      ∃ ds sep d rest, (∀ c ∈ ds, c.isDigit = true) ∧ isSep sep = true ∧
        d.isDigit = true ∧ l = ds ++ sep :: d :: rest := by
  induction l with
  | nil =>
    constructor
    · intro h
      simp [matchSepDigit] at h
    · rintro ⟨ds, sep, d, r, -, -, -, heq⟩
      cases ds <;> simp at heq
  | cons c rest ih =>
    by_cases hc : c.isDigit = true
    · have hstep : matchSepDigit (c :: rest) = matchSepDigit rest := by
        simp [matchSepDigit, hc]
      rw [hstep, ih]
      constructor
      · rintro ⟨ds, sep, d, r, hds, hsep, hd, heq⟩
        exact ⟨c :: ds, sep, d, r,
          by intro x hx; rw [List.mem_cons] at hx
             rcases hx with rfl | hx; exact hc; exact hds x hx,
          hsep, hd, by simp [heq]⟩
      · rintro ⟨ds, sep, d, r, hds, hsep, hd, heq⟩
        cases ds with
        | nil =>
          simp only [List.nil_append, List.cons.injEq] at heq
          obtain ⟨rfl, -⟩ := heq
          exact absurd hc (by simp [isSep_not_digit _ hsep])
        | cons e es =>
          simp only [List.cons_append, List.cons.injEq] at heq
          obtain ⟨rfl, heq⟩ := heq
          exact ⟨es, sep, d, r, fun x hx => hds x (List.mem_cons_of_mem _ hx),
            hsep, hd, heq⟩
    · by_cases hs : isSep c = true
      · clear ih
        cases rest with
        | nil =>
          have hstep : matchSepDigit [c] = false := by
            simp [matchSepDigit, hc, hs]
          rw [hstep]
          constructor
          · intro h; simp at h
          · rintro ⟨ds, sep, d, r, -, -, -, heq⟩
            cases ds with
            | nil => simp at heq
            | cons e es =>
              simp only [List.cons_append, List.cons.injEq] at heq
              obtain ⟨-, heq⟩ := heq
              cases es <;> simp at heq
        | cons d₀ r₀ =>
          have hstep : matchSepDigit (c :: d₀ :: r₀) = d₀.isDigit := by
            simp [matchSepDigit, hc, hs]
          rw [hstep]
          constructor
          · intro h
            exact ⟨[], c, d₀, r₀, by simp, hs, h, rfl⟩
          · rintro ⟨ds, sep, d, r, hds, hsep, hd, heq⟩
            cases ds with
            | nil =>
              simp only [List.nil_append, List.cons.injEq] at heq
              obtain ⟨-, rfl, -⟩ := heq
              exact hd
            | cons e es =>
              simp only [List.cons_append, List.cons.injEq] at heq
              obtain ⟨rfl, -⟩ := heq
              exact absurd (hds c (by simp)) hc
      · have hstep : matchSepDigit (c :: rest) = false := by
          simp [matchSepDigit, hc, hs]
        rw [hstep]
        constructor
        · intro h; simp at h
        · rintro ⟨ds, sep, d, r, hds, hsep, hd, heq⟩
          cases ds with
          | nil =>
            simp only [List.nil_append, List.cons.injEq] at heq
            obtain ⟨rfl, -⟩ := heq
            exact absurd hsep hs
          | cons e es =>
            simp only [List.cons_append, List.cons.injEq] at heq
            obtain ⟨rfl, -⟩ := heq
            exact absurd (hds c (by simp)) hc

theorem matchNum_iff (l : List Char) :
    matchNum l = true ↔
      ∃ ds sep d rest, ds ≠ [] ∧ (∀ c ∈ ds, c.isDigit = true) ∧
        isSep sep = true ∧ d.isDigit = true ∧ l = ds ++ sep :: d :: rest := by
  cases l with
  | nil =>
    constructor
    · intro h; simp [matchNum] at h
    · rintro ⟨ds, sep, d, r, -, -, -, -, heq⟩
      cases ds <;> simp at heq
  | cons c rest =>
    have hstep : matchNum (c :: rest) = (c.isDigit && matchSepDigit rest) := rfl
    rw [hstep, Bool.and_eq_true, matchSepDigit_iff]
    constructor
    · rintro ⟨hc, ds, sep, d, r, hds, hsep, hd, heq⟩
      exact ⟨c :: ds, sep, d, r, by simp,
        by intro x hx; rw [List.mem_cons] at hx
           rcases hx with rfl | hx; exact hc; exact hds x hx,
        hsep, hd, by simp [heq]⟩
    · rintro ⟨ds, sep, d, r, hne, hds, hsep, hd, heq⟩
      cases ds with
      | nil => exact absurd rfl hne
      | cons e es =>
        simp only [List.cons_append, List.cons.injEq] at heq
        obtain ⟨rfl, heq⟩ := heq
        exact ⟨hds c (by simp),
          es, sep, d, r, fun x hx => hds x (List.mem_cons_of_mem _ hx),
          hsep, hd, heq⟩

theorem regexChars_iff (l : List Char) :
    regexChars l = true ↔ SpecVersionPattern l := by
  cases l with
  | nil =>
    constructor
    · intro h; simp [regexChars] at h
    · rintro ⟨pre, ds, sep, d, r, hpre, hne, -, -, -, heq⟩
      rcases hpre with rfl | rfl
      · cases ds with
        | nil => exact absurd rfl hne
        | cons e es => simp at heq
      · simp at heq
  | cons c rest =>
    by_cases hc : c = 'v'
    · subst hc
      have hstep : regexChars ('v' :: rest) =
          (matchNum rest || matchNum ('v' :: rest)) := by
        simp [regexChars]
      rw [hstep, Bool.or_eq_true, matchNum_iff, matchNum_iff]
      constructor
      · rintro (⟨ds, sep, d, r, hne, hds, hsep, hd, heq⟩ |
          ⟨ds, sep, d, r, hne, hds, hsep, hd, heq⟩)
        · exact ⟨['v'], ds, sep, d, r, Or.inr rfl, hne, hds, by
            simpa [isSep, or_assoc] using hsep, hd, by simp [heq]⟩
        · exact ⟨[], ds, sep, d, r, Or.inl rfl, hne, hds, by
            simpa [isSep, or_assoc] using hsep, hd, by simp [heq]⟩
      · rintro ⟨pre, ds, sep, d, r, hpre, hne, hds, hsep, hd, heq⟩
        have hsep' : isSep sep = true := by
          rcases hsep with rfl | rfl | rfl <;> rfl
        rcases hpre with rfl | rfl
        · exact Or.inr ⟨ds, sep, d, r, hne, hds, hsep', hd, by simpa using heq⟩
        · simp only [List.cons_append, List.cons.injEq, List.nil_append] at heq
          exact Or.inl ⟨ds, sep, d, r, hne, hds, hsep', hd, heq.2⟩
    · have hstep : regexChars (c :: rest) = matchNum (c :: rest) := by
        simp [regexChars, hc]
      rw [hstep, matchNum_iff]
      constructor
      · rintro ⟨ds, sep, d, r, hne, hds, hsep, hd, heq⟩
        exact ⟨[], ds, sep, d, r, Or.inl rfl, hne, hds, by
          simpa [isSep, or_assoc] using hsep, hd, by simp [heq]⟩
      · rintro ⟨pre, ds, sep, d, r, hpre, hne, hds, hsep, hd, heq⟩
        have hsep' : isSep sep = true := by
          rcases hsep with rfl | rfl | rfl <;> rfl
        rcases hpre with rfl | rfl
        · exact ⟨ds, sep, d, r, hne, hds, hsep', hd, by simpa using heq⟩
        · simp only [List.cons_append, List.cons.injEq, List.nil_append] at heq
          exact absurd heq.1 hc

theorem is_version_dir_iff (name : String) :
    is_version_dir name = true ↔
      startsWithDot name = false ∧
        (SpecVersionPattern name.data ∨ name = "latest" ∨ name = "stable") := by
  unfold is_version_dir version_regex_accepts
  rw [Bool.and_eq_true, Bool.not_eq_true']
  rw [Bool.or_eq_true, Bool.or_eq_true]
  rw [regexChars_iff]
  simp [beq_iff_eq, or_assoc]

/-! ### Claim C2: version-directory classification -/

/-- C2: a subdirectory of an application directory contributes an entry to
the application's version list exactly when its name is not hidden (does
not start with a dot) and either matches the declarative pattern `optional
leading v, one or more digits, one of - . _, one or more digits` anchored
at the start, or is the literal `latest` or `stable`; concretely, `data`,
`.hidden` and `1` are rejected while `latest`, `stable`, `v1-0` and
`2.5.1` are accepted. -/
theorem C2_version_directory_classification :
    (∀ (cfg : Config) (now : Nat) (d : AppDir) (a : AppData) (name : String),
      process_app cfg now d = Except.ok a →
        ((∃ v ∈ a.versions, v.id = name) ↔
          ∃ sub ∈ d.subdirs, sub.name = name ∧
            (startsWithDot name = false ∧
              (SpecVersionPattern name.data ∨ name = "latest" ∨
                name = "stable")))) ∧
    is_version_dir "data" = false ∧ is_version_dir ".hidden" = false ∧
    is_version_dir "1" = false ∧ is_version_dir "latest" = true ∧
    is_version_dir "stable" = true ∧ is_version_dir "v1-0" = true ∧
    is_version_dir "2.5.1" = true := by
  refine ⟨?_, by decide, by decide, by decide, by decide, by decide,
    by decide, by decide⟩
  intro cfg now d a name hok
  rw [process_app_ok_iff] at hok
  obtain ⟨m, -, rfl⟩ := hok
  rw [build_app_data_versions]
  constructor
  · rintro ⟨v, hv, rfl⟩
    rw [List.mem_map] at hv
    obtain ⟨sub, hsub, rfl⟩ := hv
    have hsub' := (List.perm_insertionSort _ _).subset hsub
    rw [List.mem_filter] at hsub'
    rw [process_version_id]
    refine ⟨sub, hsub'.1, rfl, ?_⟩
    have := (is_version_dir_iff sub.name).mp hsub'.2
    exact this
  · rintro ⟨sub, hsub, rfl, hcls⟩
    refine ⟨process_version cfg now d.name sub, ?_, process_version_id _ _ _ _⟩
    rw [List.mem_map]
    refine ⟨sub, ?_, rfl⟩
    rw [(List.perm_insertionSort _ _).mem_iff, List.mem_filter]
    exact ⟨hsub, (is_version_dir_iff sub.name).mpr hcls⟩

/-! ### Claims C5, C7, C10: metadata handling -/

theorem get_app_metadata_no_files (cfg : Config) (d : AppDir)
    (h1 : d.metadataYml = none) (h2 : d.metadataJson = none) :
    get_app_metadata cfg d = Except.ok (add_icon cfg d (add_readme d [])) := by
  unfold get_app_metadata load_metadata_file
  rw [h1, h2]

theorem get_add_steps_none (cfg : Config) (d : AppDir) (k : String)
    (hk1 : k ≠ "readMe") (hk2 : k ≠ "icon") :
    Metadata.get (add_icon cfg d (add_readme d [])) k = none := by
  rw [get_add_icon_ne cfg d _ k hk2, get_add_readme_ne d _ k hk1]
  rfl

/-- C5: for an application directory with neither `metadata.yml` nor
`metadata.json`, processing succeeds and the emitted entry's `name` and
`title` are the title-cased directory name, `tags` is the empty list and
`additionalProperties.architectures` is `["amd64", "arm64"]`. -/
theorem C5_defaults_without_metadata (cfg : Config) (now : Nat) (d : AppDir)
    (h1 : d.metadataYml = none) (h2 : d.metadataJson = none) :
    ∃ a, process_app cfg now d = Except.ok a ∧
      a.name = MValue.str (titlecase d.name) ∧
      a.title = MValue.str (titlecase d.name) ∧
      a.tags = MValue.list [] ∧
      a.additionalProperties.architectures =
        MValue.list [MValue.str "amd64", MValue.str "arm64"] := by
  refine ⟨build_app_data cfg now d (add_icon cfg d (add_readme d [])),
    ?_, ?_, ?_, ?_, ?_⟩
  · unfold process_app
    rw [get_app_metadata_no_files cfg d h1 h2]
  · show Metadata.getD (add_icon cfg d (add_readme d [])) "name"
      (MValue.str (titlecase d.name)) = MValue.str (titlecase d.name)
    unfold Metadata.getD
    rw [get_add_steps_none cfg d "name" (by decide) (by decide)]
    rfl
  · show Metadata.getD (add_icon cfg d (add_readme d [])) "title"
      (MValue.str (titlecase d.name)) = MValue.str (titlecase d.name)
    unfold Metadata.getD
    rw [get_add_steps_none cfg d "title" (by decide) (by decide)]
    rfl
  · show Metadata.getD (add_icon cfg d (add_readme d [])) "tags"
      (MValue.list []) = MValue.list []
    unfold Metadata.getD
    rw [get_add_steps_none cfg d "tags" (by decide) (by decide)]
    rfl
  · show Metadata.getD (add_icon cfg d (add_readme d [])) "architectures"
      (MValue.list [MValue.str "amd64", MValue.str "arm64"]) =
        MValue.list [MValue.str "amd64", MValue.str "arm64"]
    unfold Metadata.getD
    rw [get_add_steps_none cfg d "architectures" (by decide) (by decide)]
    rfl

/-- Witness for C5: the defaults hold on a concrete application directory
with no metadata files. -/
theorem C5_defaults_demo :
    ∃ a, process_app fixtureCfg 0 dPlain = Except.ok a ∧
      a.name = MValue.str (titlecase dPlain.name) ∧
      a.title = MValue.str (titlecase dPlain.name) ∧
      a.tags = MValue.list [] ∧
      a.additionalProperties.architectures =
        MValue.list [MValue.str "amd64", MValue.str "arm64"] :=
  C5_defaults_without_metadata fixtureCfg 0 dPlain rfl rfl

/-- C7: for every application directory, exactly one metadata file is
parsed, `metadata.yml` when it exists (the content of `metadata.json` is
then irrelevant, even when `metadata.yml` is malformed), else
`metadata.json` when it exists, else the mapping starts empty; and when
`README.md` exists its full text ends up under the `readMe` key whatever
the metadata file said. -/
theorem C7_metadata_loading_precedence :
    ∀ (cfg : Config) (d : AppDir),
      (∀ y, d.metadataYml = some y →
        ∀ j, get_app_metadata cfg { d with metadataJson := j } =
          get_app_metadata cfg { d with metadataJson := none }) ∧
      (d.metadataYml = some (Except.error ()) →
        get_app_metadata cfg d = Except.error ()) ∧
      (d.metadataYml = none → d.metadataJson = some (Except.error ()) →
        get_app_metadata cfg d = Except.error ()) ∧
      (d.metadataYml = none → d.metadataJson = none →
        ∃ m, get_app_metadata cfg d = Except.ok m ∧
          ∀ k, k ≠ "readMe" → k ≠ "icon" → Metadata.get m k = none) ∧
      (∀ t, d.readme = some t →
        ∀ m, get_app_metadata cfg d = Except.ok m →
          Metadata.get m "readMe" = some (MValue.str t)) := by
  intro cfg d
  refine ⟨?_, ?_, ?_, ?_, ?_⟩
  · intro y hy j
    cases d with
    | mk nm yml js rd ic sd =>
      simp only at hy
      subst hy
      rfl
  · intro hy
    unfold get_app_metadata load_metadata_file
    rw [hy]
  · intro hy hj
    unfold get_app_metadata load_metadata_file
    rw [hy, hj]
  · intro h1 h2
    exact ⟨add_icon cfg d (add_readme d []),
      get_app_metadata_no_files cfg d h1 h2, get_add_steps_none cfg d⟩
  · intro t ht m hm
    unfold get_app_metadata at hm
    cases hload : load_metadata_file d with
    | error e => rw [hload] at hm; exact absurd hm (by simp)
    | ok base =>
      rw [hload] at hm
      have hm' : add_icon cfg d (add_readme d base) = m := by
        simpa using hm
      rw [← hm', get_add_icon_ne cfg d _ _ (by decide)]
      unfold add_readme
      rw [ht]
      exact Metadata.get_set_self base "readMe" (MValue.str t)

/-- C10: for every successfully processed application,
`additionalProperties.shortDescEn` is the metadata `shortDescEn` value
when present, else the metadata `description` value when present, else
the empty string. -/
theorem C10_shortDescEn_fallback (cfg : Config) (now : Nat) (d : AppDir)
    (a : AppData) (h : process_app cfg now d = Except.ok a) :
    ∃ m, get_app_metadata cfg d = Except.ok m ∧
      (∀ v, Metadata.get m "shortDescEn" = some v →
        a.additionalProperties.shortDescEn = v) ∧
      (Metadata.get m "shortDescEn" = none →
        ∀ w, Metadata.get m "description" = some w →
          a.additionalProperties.shortDescEn = w) ∧
      (Metadata.get m "shortDescEn" = none →
        Metadata.get m "description" = none →
          a.additionalProperties.shortDescEn = MValue.str "") := by
  rw [process_app_ok_iff] at h
  obtain ⟨m, hm, rfl⟩ := h
  have hfield : (build_app_data cfg now d m).additionalProperties.shortDescEn =
      Metadata.getD m "shortDescEn"
        (Metadata.getD m "description" (MValue.str "")) := rfl
  refine ⟨m, hm, ?_, ?_, ?_⟩
  · intro v hv
    rw [hfield]
    unfold Metadata.getD
    rw [hv]
    rfl
  · intro hnone w hw
    rw [hfield]
    unfold Metadata.getD
    rw [hnone, hw]
    rfl
  · intro hnone1 hnone2
    rw [hfield]
    unfold Metadata.getD
    rw [hnone1, hnone2]
    rfl

/-- Witness for C10: a concrete application whose metadata has a
`description` but no `shortDescEn`; the fallback chain applies to it. -/
theorem C10_fallback_demo :
    ∃ m, get_app_metadata fixtureCfg dDescOnly = Except.ok m ∧
      (∀ v, Metadata.get m "shortDescEn" = some v →
        appDescOnly.additionalProperties.shortDescEn = v) ∧
      (Metadata.get m "shortDescEn" = none →
        ∀ w, Metadata.get m "description" = some w →
          appDescOnly.additionalProperties.shortDescEn = w) ∧
      (Metadata.get m "shortDescEn" = none →
        Metadata.get m "description" = none →
          appDescOnly.additionalProperties.shortDescEn = MValue.str "") :=
  C10_shortDescEn_fallback fixtureCfg 0 dDescOnly appDescOnly rfl

/-! ### Correctness of the calendar decomposition -/

theorem daysInYear_ge (y : Nat) : 365 ≤ daysInYear y := by
  unfold daysInYear
  split <;> omega

theorem sumYears_self (y : Nat) : sumYears y y = 0 := by
  unfold sumYears
  simp

theorem sumYears_succ_left (lo hi : Nat) (h : lo < hi) :
    sumYears lo hi = daysInYear lo + sumYears (lo + 1) hi := by
  unfold sumYears
  have hk : hi - lo = (hi - (lo + 1)) + 1 := by omega
  rw [hk, List.range_succ_eq_map, List.map_cons, List.map_map, List.sum_cons]
  congr 1
  refine congrArg List.sum (List.map_congr_left ?_)
  intro a _
  show daysInYear (lo + (a + 1)) = daysInYear (lo + 1 + a)
  congr 1
  omega

theorem civilYearGo_correct : ∀ (fuel y d : Nat), d < fuel →
    y ≤ (civilYearGo fuel y d).1 ∧
    (civilYearGo fuel y d).2 < daysInYear (civilYearGo fuel y d).1 ∧
    sumYears y (civilYearGo fuel y d).1 + (civilYearGo fuel y d).2 = d := by
  intro fuel
  induction fuel with
  | zero => intro y d h; omega
  | succ f ih =>
    intro y d h
    by_cases hd : d < daysInYear y
    · have hr : civilYearGo (f + 1) y d = (y, d) := by
        simp [civilYearGo, hd]
      rw [hr]
      exact ⟨Nat.le_refl y, hd, by simp [sumYears_self]⟩
    · have hpos := daysInYear_ge y
      have hr : civilYearGo (f + 1) y d =
          civilYearGo f (y + 1) (d - daysInYear y) := by
        simp [civilYearGo, hd]
      rw [hr]
      obtain ⟨h1, h2, h3⟩ := ih (y + 1) (d - daysInYear y) (by omega)
      refine ⟨by omega, h2, ?_⟩
      rw [sumYears_succ_left y _ (by omega)]
      omega

theorem monthLengths_sum_eq (y : Nat) :
    (monthLengths (isLeap y)).sum = daysInYear y := by
  unfold daysInYear
  cases isLeap y <;> simp [monthLengths]

theorem monthLengths_length (b : Bool) : (monthLengths b).length = 12 := by
  cases b <;> rfl

theorem monthLengths_getD_le (b : Bool) (i : Nat) :
    (monthLengths b).getD i 0 ≤ 31 := by
  have hmem : ∀ x ∈ monthLengths b, x ≤ 31 := by
    intro x hx
    cases b <;> simp [monthLengths] at hx <;> omega
  unfold List.getD
  cases hget : (monthLengths b).get? i with
  | none => simp
  | some x => simpa using hmem x (List.get?_mem hget)

theorem civilMonth_correct : ∀ (lens : List Nat) (m d : Nat), d < lens.sum →
    m ≤ (civilMonth lens m d).1 ∧
    (civilMonth lens m d).1 - m < lens.length ∧
    (lens.take ((civilMonth lens m d).1 - m)).sum + (civilMonth lens m d).2 = d ∧
    (civilMonth lens m d).2 < lens.getD ((civilMonth lens m d).1 - m) 0 := by
  intro lens
  induction lens with
  | nil => intro m d h; simp at h
  | cons len rest ih =>
    intro m d h
    by_cases hd : d < len
    · have hr : civilMonth (len :: rest) m d = (m, d) := by
        simp [civilMonth, hd]
      rw [hr]
      refine ⟨Nat.le_refl m, by simp, by simp, ?_⟩
      have hzero : m - m = 0 := Nat.sub_self m
      rw [hzero]
      simpa [List.getD] using hd
    · have hsum : d - len < rest.sum := by
        simp only [List.sum_cons] at h
        omega
      have hr : civilMonth (len :: rest) m d =
          civilMonth rest (m + 1) (d - len) := by
        simp [civilMonth, hd]
      rw [hr]
      obtain ⟨h1, h2, h3, h4⟩ := ih (m + 1) (d - len) hsum
      have hidx : (civilMonth rest (m + 1) (d - len)).1 - m =
          ((civilMonth rest (m + 1) (d - len)).1 - (m + 1)) + 1 := by
        omega
      refine ⟨by omega, ?_, ?_, ?_⟩
      · simp only [List.length_cons]
        omega
      · rw [hidx, List.take_succ_cons, List.sum_cons]
        omega
      · rw [hidx]
        have hgd : (len :: rest).getD
            (((civilMonth rest (m + 1) (d - len)).1 - (m + 1)) + 1) 0 =
            rest.getD ((civilMonth rest (m + 1) (d - len)).1 - (m + 1)) 0 := rfl
        rw [hgd]
        exact h4

theorem gmtime_correct (t : Nat) :
    epochOfParts (gmtime t) = t ∧ 1970 ≤ (gmtime t).year ∧
    1 ≤ (gmtime t).month ∧ (gmtime t).month ≤ 12 ∧
    1 ≤ (gmtime t).day ∧ (gmtime t).day ≤ 31 ∧
    (gmtime t).hour < 24 ∧ (gmtime t).minute < 60 ∧
    (gmtime t).second < 60 := by
  have hy : 1970 ≤ (civilYear (t / 86400)).1 ∧
      (civilYear (t / 86400)).2 < daysInYear (civilYear (t / 86400)).1 ∧
      sumYears 1970 (civilYear (t / 86400)).1 + (civilYear (t / 86400)).2 =
        t / 86400 :=
    civilYearGo_correct (t / 86400 + 1) 1970 (t / 86400) (by omega)
  obtain ⟨hy1, hy2, hy3⟩ := hy
  have hmsum : (civilYear (t / 86400)).2 <
      (monthLengths (isLeap (civilYear (t / 86400)).1)).sum := by
    rw [monthLengths_sum_eq]
    exact hy2
  obtain ⟨hm1, hm2, hm3, hm4⟩ :=
    civilMonth_correct (monthLengths (isLeap (civilYear (t / 86400)).1)) 1
      (civilYear (t / 86400)).2 hmsum
  have hyear : (gmtime t).year = (civilYear (t / 86400)).1 := rfl
  have hmonth : (gmtime t).month =
      (civilMonth (monthLengths (isLeap (civilYear (t / 86400)).1)) 1
        (civilYear (t / 86400)).2).1 := rfl
  have hday : (gmtime t).day =
      (civilMonth (monthLengths (isLeap (civilYear (t / 86400)).1)) 1
        (civilYear (t / 86400)).2).2 + 1 := rfl
  have hhour : (gmtime t).hour = t % 86400 / 3600 := rfl
  have hminute : (gmtime t).minute = t % 86400 % 3600 / 60 := rfl
  have hsecond : (gmtime t).second = t % 86400 % 60 := rfl
  have hlen := monthLengths_length (isLeap (civilYear (t / 86400)).1)
  have hgd := monthLengths_getD_le (isLeap (civilYear (t / 86400)).1)
    ((civilMonth (monthLengths (isLeap (civilYear (t / 86400)).1)) 1
      (civilYear (t / 86400)).2).1 - 1)
  have hepoch : epochOfParts (gmtime t) =
      (sumYears 1970 (gmtime t).year +
        daysBeforeMonthInYear (isLeap (gmtime t).year) (gmtime t).month +
        ((gmtime t).day - 1)) * 86400 +
      (gmtime t).hour * 3600 + (gmtime t).minute * 60 + (gmtime t).second := rfl
  have hbefore : daysBeforeMonthInYear (isLeap (gmtime t).year) (gmtime t).month =
      ((monthLengths (isLeap (civilYear (t / 86400)).1)).take
        ((civilMonth (monthLengths (isLeap (civilYear (t / 86400)).1)) 1
          (civilYear (t / 86400)).2).1 - 1)).sum := rfl
  refine ⟨?_, ?_, ?_, ?_, ?_, ?_, ?_, ?_, ?_⟩
  · rw [hepoch, hbefore, hyear, hday, hhour, hminute, hsecond]
    omega
  · rw [hyear]; exact hy1
  · rw [hmonth]; exact hm1
  · rw [hmonth]; omega
  · rw [hday]; omega
  · rw [hday]; omega
  · rw [hhour]; omega
  · rw [hminute]; omega
  · rw [hsecond]; omega

/-! ### Claim C8: the file timestamp is a true UTC rendering -/

/-- C8 (amended): every file's `lastModified` string is rendered through
the calendar decomposition `gmtime` of the file's modification time with
the literal `.000+00:00` suffix, and that decomposition really is the UTC
decomposition of the timestamp: re-encoding its fields through the
independent forward calendar computation `epochOfParts` returns exactly
the modification time, and every field is within its calendar range.  The
conversion is explicit (`time.gmtime`), so the `+00:00` label is correct
whatever the host's local timezone. -/
theorem C8_utc_timestamp_rendering :
    ∀ e : FsEntry,
      (get_file_info e).lastModified = strftimeISO (gmtime e.mtime) ∧
      epochOfParts (gmtime e.mtime) = e.mtime ∧
      1970 ≤ (gmtime e.mtime).year ∧
      1 ≤ (gmtime e.mtime).month ∧ (gmtime e.mtime).month ≤ 12 ∧
      1 ≤ (gmtime e.mtime).day ∧ (gmtime e.mtime).day ≤ 31 ∧
      (gmtime e.mtime).hour < 24 ∧ (gmtime e.mtime).minute < 60 ∧
      (gmtime e.mtime).second < 60 := by
  intro e
  exact ⟨rfl, gmtime_correct e.mtime⟩

/-- Counterexample to C8 as stated: the code renders the modification
time through `time.gmtime`, an explicit UTC conversion, and therefore
does not produce the local-time interpretation the claim describes.  At
modification time 0 on a host one hour east of UTC the code emits the
epoch itself while the claimed local rendering shows one hour later, so
the two differ. -/
theorem C8_local_interpretation_counterexample :
    (get_file_info
        { name := "app.tar.gz", isFile := true, size := 7,
          mtime := 0 }).lastModified = "1970-01-01T00:00:00.000+00:00" ∧
    claimedLocalLastModified 3600 0 = "1970-01-01T01:00:00.000+00:00" ∧
    (get_file_info
        { name := "app.tar.gz", isFile := true, size := 7,
          mtime := 0 }).lastModified ≠ claimedLocalLastModified 3600 0 := by
  exact ⟨rfl, rfl, by decide⟩

end AppStore
